import Mathlib

/-!
Verification of the Halite-III bot's grid/navigation/resource-valuation core
(`hlt/game_map.py`), shallowly embedded in Lean 4.

Python integers become `Int`/`Nat`; Python's true division (`/`) on the
Dijkstra edge costs becomes exact rational arithmetic (`ℚ`); the `heapq`
min-priority queue of `(priority, Position)` pairs becomes a list kept sorted
by a total order on entries (priority first, position lexicographically on
ties); `while q:` loops become fuel-indexed recursion (`Option` result, `none`
on fuel exhaustion) together with theorems that an explicit fuel bound always
suffices; Python dicts become association lists.
-/

namespace Halite

/-- Modelled from the spec: the `Direction` type of `hlt/positionals.py`,
which is part of this repository but not included under `src/`.  The spec's
glossary fixes the four cardinal directions North/South/East/West plus the
non-moving "stay" (`Direction.Still`). -/
inductive Direction where
  | north
  | south
  | east
  | west
  | still
deriving DecidableEq, Repr

/-- A position on the grid: an integer pair, as in `hlt/positionals.py`
(`Coordinate: integer (x,y); component-wise arithmetic` in the spec). -/
structure Pos where
  x : Int
  y : Int
deriving DecidableEq, Repr

/-- Modelled from the spec: component-wise addition of positions
(`Position.__add__` / `directional_offset` arithmetic of `positionals.py`). -/
def Pos.add (p q : Pos) : Pos := ⟨p.x + q.x, p.y + q.y⟩

/-- Modelled from the spec: the unit offset of each direction, as used by
`Position.directional_offset` (North decreases `y`, South increases `y`,
East increases `x`, West decreases `x`; Still is the zero offset). -/
def Direction.offset : Direction → Pos
  | .north => ⟨0, -1⟩
  | .south => ⟨0, 1⟩
  | .east => ⟨1, 0⟩
  | .west => ⟨-1, 0⟩
  | .still => ⟨0, 0⟩

/-- Modelled from the spec: `Direction.invert` of `positionals.py` swaps each
cardinal direction with its opposite. -/
def Direction.invert : Direction → Direction
  | .north => .south
  | .south => .north
  | .east => .west
  | .west => .east
  | .still => .still

/-- Modelled from the spec: `Direction.get_all_cardinals()` enumerates the
four cardinal directions in the fixed order North, South, East, West. -/
def cardinals : List Direction := [.north, .south, .east, .west]

/-- `Position.directional_offset`: the position one step in a direction
(not normalized). -/
def Pos.directional_offset (p : Pos) (d : Direction) : Pos := p.add d.offset

/-- A cell of the game map (`MapCell`): resource amount, occupying ship
(presence via an id), structure (via its owner/entity id). -/
structure Cell where
  halite : Int
  ship : Option Nat
  struct : Option Int
deriving DecidableEq, Repr

/-- The game map (`GameMap`): fixed width and height, and the cell contents,
represented as a function on positions of which only the values on
normalized positions are ever consulted. -/
structure GMap where
  width : Nat
  height : Nat
  cell : Pos → Cell

/-- `GameMap.normalize`: wrap a position into `[0,width) × [0,height)` using
Python's `%` (Euclidean remainder on `Int`). -/
def GMap.normalize (m : GMap) (p : Pos) : Pos :=
  ⟨p.x % (m.width : Int), p.y % (m.height : Int)⟩

/-- A position lies inside the grid bounds `[0,width) × [0,height)`. -/
def GMap.isNormalized (m : GMap) (p : Pos) : Prop :=
  0 ≤ p.x ∧ p.x < (m.width : Int) ∧ 0 ≤ p.y ∧ p.y < (m.height : Int)

instance (m : GMap) (p : Pos) : Decidable (m.isNormalized p) := by
  unfold GMap.isNormalized; infer_instance

/-- `GameMap.__getitem__` for a `Position`: normalize, then read the cell. -/
def GMap.getCell (m : GMap) (p : Pos) : Cell := m.cell (m.normalize p)

/-- The per-axis toroidal gap used by `GameMap.calculate_distance`: the
smaller of the absolute delta `|a - b|` and the wrapped-around gap
`extent - |a - b|`. -/
def wdist (extent a b : Int) : Int :=
  min (((a - b).natAbs : Int)) (extent - ((a - b).natAbs : Int))

/-- `GameMap.calculate_distance`: toroidal Manhattan distance.  Normalize
both points, take the component-wise absolute delta
(`resulting_position = abs(source - target)`), and on each axis take the
smaller of the direct and the wrapped-around gap. -/
def GMap.calculate_distance (m : GMap) (source target : Pos) : Int :=
  wdist (m.width : Int) (m.normalize source).x (m.normalize target).x
  + wdist (m.height : Int) (m.normalize source).y (m.normalize target).y

/-- The x-component of `GameMap._get_target_direction` (East if the target's
x exceeds the source's, West if it is smaller).  The Python function yields
`None` on equality; that value is only ever used when the delta is nonzero,
so equality is mapped to an arbitrary cardinal here. -/
def xCardinality (source target : Pos) : Direction :=
  if target.x > source.x then .east else .west

/-- The y-component of `GameMap._get_target_direction` (South if the target's
y exceeds the source's, North if it is smaller). -/
def yCardinality (source target : Pos) : Direction :=
  if target.y > source.y then .south else .north

/-- `GameMap.get_unsafe_moves`: normalize both points; on each axis with a
nonzero absolute delta append the naive bearing if the delta is strictly
below half the extent (`distance.x < width / 2` in exact arithmetic:
`2 * delta < width`), else the inverted bearing; x-axis entry first. -/
def GMap.get_unsafe_moves (m : GMap) (source destination : Pos) : List Direction :=
  (if ((m.normalize destination).x - (m.normalize source).x).natAbs ≠ 0 then
    [if 2 * (((m.normalize destination).x - (m.normalize source).x).natAbs : Int)
        < (m.width : Int) then
      xCardinality (m.normalize source) (m.normalize destination)
    else
      (xCardinality (m.normalize source) (m.normalize destination)).invert]
  else []) ++
  (if ((m.normalize destination).y - (m.normalize source).y).natAbs ≠ 0 then
    [if 2 * (((m.normalize destination).y - (m.normalize source).y).natAbs : Int)
        < (m.height : Int) then
      yCardinality (m.normalize source) (m.normalize destination)
    else
      (yCardinality (m.normalize source) (m.normalize destination)).invert]
  else [])

/-- The body of the per-turn resource-update loop in `GameMap._update`:
`self[Position(cell_x, cell_y)].halite_amount = cell_energy`.  Indexing
normalizes the coordinate, and the amount is stored unconditionally. -/
def GMap.apply_resource_update (m : GMap) (cellX cellY energy : Int) : GMap :=
  { m with cell := fun p =>
      if p = m.normalize ⟨cellX, cellY⟩ then
        { m.cell p with halite := energy }
      else m.cell p }

/-- The total order used by the priority queues on `(priority, position)`
entries: by priority first and, on equal priorities, by the position,
lexicographically.  Modelled from the spec for the position tie-break: the
spec's `PriorityFrontier` is a min-priority queue of `(cost, Coordinate)`
pairs, which requires a total order on entries; `positionals.py` (where the
repository's `Position` comparison would live) is not included under
`src/`. -/
def entryRel {α : Type} [LinearOrder α] (a b : α × Pos) : Prop :=
  a.1 < b.1 ∨ (a.1 = b.1 ∧ (a.2.x < b.2.x ∨ (a.2.x = b.2.x ∧ a.2.y ≤ b.2.y)))

instance {α : Type} [LinearOrder α] : DecidableRel (@entryRel α _) := by
  intro a b; unfold entryRel; infer_instance

instance {α : Type} [LinearOrder α] : IsTotal (α × Pos) entryRel where
  total a b := by
    unfold entryRel
    rcases lt_trichotomy a.1 b.1 with h | h | h
    · exact Or.inl (Or.inl h)
    · rcases lt_trichotomy a.2.x b.2.x with h2 | h2 | h2
      · exact Or.inl (Or.inr ⟨h, Or.inl h2⟩)
      · rcases le_total a.2.y b.2.y with h3 | h3
        · exact Or.inl (Or.inr ⟨h, Or.inr ⟨h2, h3⟩⟩)
        · exact Or.inr (Or.inr ⟨h.symm, Or.inr ⟨h2.symm, h3⟩⟩)
      · exact Or.inr (Or.inr ⟨h.symm, Or.inl h2⟩)
    · exact Or.inr (Or.inl h)

instance {α : Type} [LinearOrder α] : IsTrans (α × Pos) entryRel where
  trans a b c hab hbc := by
    unfold entryRel at *
    rcases hab with h1 | ⟨h1, h1'⟩ <;> rcases hbc with h2 | ⟨h2, h2'⟩
    · exact Or.inl (h1.trans h2)
    · exact Or.inl (h2 ▸ h1)
    · exact Or.inl (h1 ▸ h2)
    · refine Or.inr ⟨h1.trans h2, ?_⟩
      rcases h1' with h3 | ⟨h3, h3'⟩ <;> rcases h2' with h4 | ⟨h4, h4'⟩
      · exact Or.inl (h3.trans h4)
      · exact Or.inl (h4 ▸ h3)
      · exact Or.inl (h3 ▸ h4)
      · exact Or.inr ⟨h3.trans h4, h3'.trans h4'⟩

/-- Association-list lookup, modelling Python dict lookup keyed by position
(`position in seen`, `cost_map[position]`). -/
def alookup {β : Type} : List (Pos × β) → Pos → Option β
  | [], _ => none
  | (k, v) :: rest, p => if p = k then some v else alookup rest p

/-- Push one entry per direction of `l` into the sorted frontier `q`; this is
the loop `for neighbour in position.get_surrounding_cardinals(): heappush(...)`
in both `_calculate_potential_cell` and `dijkstra_map`. -/
def pushAll {α : Type} [LinearOrder α] (f : Direction → α × Pos)
    (q : List (α × Pos)) (l : List Direction) : List (α × Pos) :=
  l.foldl (fun acc d => acc.orderedInsert entryRel (f d)) q

/-- The loop state of `GameMap._calculate_potential_cell`: the frontier `q`
(kept sorted by `entryRel`, modelling the `heapq` min-heap of
`(distance, position)` entries), the `seen` dict, and the running
`potential` accumulator. -/
structure PState where
  q : List (Nat × Pos)
  seen : List (Pos × Nat)
  pot : Int
deriving DecidableEq, Repr

/-- One iteration of the `while q:` body of
`GameMap._calculate_potential_cell`, applied to the popped entry
`(distance, position)` and the remaining frontier `rest`.  If the position
was already seen it is skipped; otherwise it is recorded in `seen`, and only
when its cell holds no ship does it contribute to the potential
(`-1000 * (range - distance)` for an own structure, else
`halite * (range - distance)^2`) and push its four normalized cardinal
neighbours at `distance + 1`. -/
def GMap.potBody (m : GMap) (playerId : Int) (distance : Nat) (position : Pos)
    (rest : List (Nat × Pos)) (seen : List (Pos × Nat)) (pot : Int) : PState :=
  if (alookup seen position).isSome then ⟨rest, seen, pot⟩
  else
    match (m.getCell position).ship with
    | some _ => ⟨rest, (position, distance) :: seen, pot⟩
    | none =>
      let rng : Int := (m.width : Int) + (m.height : Int)
      let rangeFactor : Int := rng - (distance : Int)
      let potN : Int :=
        match (m.getCell position).struct with
        | some sid =>
          if sid = playerId then pot + (-1000) * rangeFactor
          else pot + (m.getCell position).halite * rangeFactor * rangeFactor
        | none => pot + (m.getCell position).halite * rangeFactor * rangeFactor
      ⟨pushAll (fun d => (distance + 1, m.normalize (position.directional_offset d)))
        rest cardinals,
       (position, distance) :: seen, potN⟩

/-- The `while q:` loop of `GameMap._calculate_potential_cell`, indexed by
fuel; `none` means the fuel ran out before the frontier emptied. -/
def GMap.potGo (m : GMap) (playerId : Int) : Nat → PState → Option PState
  | 0, _ => none
  | fuel + 1, s =>
    match s.q with
    | [] => some s
    | (distance, position) :: rest =>
      m.potGo playerId fuel (m.potBody playerId distance position rest s.seen s.pot)

/-- `GameMap._calculate_potential_cell`: Dijkstra-style expansion from
`source`, seeded with `(0, source)`, returning the accumulated potential.
The unused `dropoffs` parameter of the Python function is omitted.  The fuel
`5 * width * height + 2` is an upper bound on the number of loop iterations
(proved sufficient below). -/
def GMap.calculate_potential_cell (m : GMap) (source : Pos) (playerId : Int) : Option Int :=
  (m.potGo playerId (5 * (m.width * m.height) + 2) ⟨[(0, source)], [], 0⟩).map
    (fun s => s.pot)

/-- The loop state of `GameMap.dijkstra_map`: the frontier `q` (kept sorted
by `entryRel`, modelling the `heapq` min-heap of `(cost, position)` entries),
the `cost_map` dict, and the running `avg_halite` sum (an integer until the
final division). -/
structure DState where
  q : List (ℚ × Pos)
  cmap : List (Pos × ℚ)
  hsum : Int
deriving DecidableEq, Repr

/-- One iteration of the `while q:` body of `GameMap.dijkstra_map`.  The
popped position is skipped if already in the cost map; otherwise its cost is
recorded and each of its four normalized cardinal neighbours is pushed with
cost `cost + halite/10 + 50`, the halite of the popped cell and of each
neighbour being added to the running `avg_halite` sum. -/
def GMap.dstep (m : GMap) (s : DState) : DState :=
  match s.q with
  | [] => s
  | (cost, position) :: rest =>
    if (alookup s.cmap position).isSome then ⟨rest, s.cmap, s.hsum⟩
    else
      ⟨pushAll (fun d =>
          (cost + ((m.getCell (m.normalize (position.directional_offset d))).halite : ℚ) / 10 + 50,
           m.normalize (position.directional_offset d)))
        rest cardinals,
       (position, cost) :: s.cmap,
       s.hsum + (m.getCell position).halite +
         (cardinals.map
           (fun d => (m.getCell (m.normalize (position.directional_offset d))).halite)).sum⟩

/-- The `while q:` loop of `GameMap.dijkstra_map`, indexed by fuel; `none`
means the fuel ran out before the frontier emptied. -/
def GMap.dijkstraGo (m : GMap) : Nat → DState → Option DState
  | 0, _ => none
  | fuel + 1, s =>
    match s.q with
    | [] => some s
    | _ :: _ => m.dijkstraGo fuel (m.dstep s)

/-- `GameMap.dijkstra_map`: single-source Dijkstra seeded with `(0, base)`,
returning the cost map together with the accumulated halite sum divided by
the cell count.  The fuel `5 * width * height + 2` is an upper bound on the
number of loop iterations (proved sufficient below). -/
def GMap.dijkstra_map (m : GMap) (base : Pos) : Option (List (Pos × ℚ) × ℚ) :=
  (m.dijkstraGo (5 * (m.width * m.height) + 2) ⟨[((0 : ℚ), base)], [], 0⟩).map
    (fun s => (s.cmap, (s.hsum : ℚ) / ((m.width * m.height : Nat) : ℚ)))

/-- The direction loop of `GameMap.navigate_back`: strict improvement only
(`if dijkstra_map[target_pos] < cost`); a missing key models the `KeyError`
the Python dict lookup would raise. -/
def GMap.nbGo (m : GMap) (cm : List (Pos × ℚ)) (shipPos : Pos) :
    List Direction → ℚ → Direction → Option Direction
  | [], _, moveDir => some moveDir
  | d :: ds, cost, moveDir =>
    match alookup cm (m.normalize (shipPos.directional_offset d)) with
    | none => none
    | some c =>
      if c < cost then m.nbGo cm shipPos ds c d
      else m.nbGo cm shipPos ds cost moveDir

/-- `GameMap.navigate_back`: start from the cost of the ship's cell and the
default direction `Still`, and follow the strict-descent rule over the four
cardinal directions in order. -/
def GMap.navigate_back (m : GMap) (shipPos : Pos) (cm : List (Pos × ℚ)) : Option Direction :=
  match alookup cm shipPos with
  | none => none
  | some cost => m.nbGo cm shipPos cardinals cost .still

/-! ### Basic lemmas about lookups, normalization and the per-axis gap -/

theorem alookup_isSome_iff {β : Type} (l : List (Pos × β)) (p : Pos) :
    (alookup l p).isSome ↔ p ∈ l.map Prod.fst := by
  induction l with
  | nil => simp [alookup]
  | cons e rest ih =>
    obtain ⟨k, v⟩ := e
    by_cases h : p = k <;> simp [alookup, h, ih]

theorem alookup_eq_none_iff {β : Type} (l : List (Pos × β)) (p : Pos) :
    alookup l p = none ↔ p ∉ l.map Prod.fst := by
  rw [← alookup_isSome_iff, Option.isSome_iff_ne_none]
  tauto

theorem alookup_mem {β : Type} (l : List (Pos × β)) (p : Pos) (v : β)
    (h : alookup l p = some v) : (p, v) ∈ l := by
  induction l with
  | nil => simp [alookup] at h
  | cons e rest ih =>
    obtain ⟨k, w⟩ := e
    by_cases hp : p = k
    · subst hp
      simp [alookup] at h
      simp [h]
    · simp [alookup, hp] at h
      exact List.mem_cons_of_mem _ (ih h)

theorem GMap.normalize_isNormalized (m : GMap) (hw : 0 < m.width) (hh : 0 < m.height)
    (p : Pos) : m.isNormalized (m.normalize p) := by
  have hw' : (0 : Int) < (m.width : Int) := by exact_mod_cast hw
  have hh' : (0 : Int) < (m.height : Int) := by exact_mod_cast hh
  refine ⟨Int.emod_nonneg _ (by omega), Int.emod_lt_of_pos _ hw',
    Int.emod_nonneg _ (by omega), Int.emod_lt_of_pos _ hh'⟩

theorem GMap.normalize_eq_self (m : GMap) (p : Pos) (hp : m.isNormalized p) :
    m.normalize p = p := by
  obtain ⟨h1, h2, h3, h4⟩ := hp
  unfold GMap.normalize
  rw [Int.emod_eq_of_lt h1 h2, Int.emod_eq_of_lt h3 h4]

theorem GMap.normalize_add_left (m : GMap) (p q : Pos) :
    m.normalize ((m.normalize p).add q) = m.normalize (p.add q) := by
  unfold GMap.normalize Pos.add
  simp only
  rw [Int.emod_add_emod, Int.emod_add_emod]

theorem Direction.offset_add_invert_offset (d : Direction) (hd : d ∈ cardinals) :
    ∀ z : Pos, ((z.add d.offset).add d.invert.offset) = z := by
  intro z
  fin_cases hd <;> simp [Direction.offset, Direction.invert, Pos.add]

theorem GMap.nbr_invert (m : GMap) (p : Pos) (d : Direction) (hd : d ∈ cardinals)
    (hp : m.isNormalized p) :
    m.normalize ((m.normalize (p.directional_offset d)).directional_offset d.invert) = p := by
  unfold Pos.directional_offset
  rw [GMap.normalize_add_left, Direction.offset_add_invert_offset d hd, m.normalize_eq_self p hp]

theorem Direction.invert_mem_cardinals (d : Direction) (hd : d ∈ cardinals) :
    d.invert ∈ cardinals := by
  fin_cases hd <;> simp [Direction.invert, cardinals]

theorem wdist_nonneg (extent a b : Int) (ha : 0 ≤ a) (ha2 : a < extent)
    (hb : 0 ≤ b) (hb2 : b < extent) : 0 ≤ wdist extent a b := by
  unfold wdist
  rw [min_def]
  split_ifs <;> omega

theorem wdist_self (extent a : Int) (h : 0 ≤ extent) : wdist extent a a = 0 := by
  unfold wdist
  simp [min_def]
  omega

theorem wdist_eq_zero (extent a b : Int) (ha : 0 ≤ a) (ha2 : a < extent)
    (hb : 0 ≤ b) (hb2 : b < extent) (h : wdist extent a b = 0) : a = b := by
  unfold wdist at h
  rw [min_def] at h
  split_ifs at h <;> omega

theorem wdist_comm (extent a b : Int) : wdist extent a b = wdist extent b a := by
  unfold wdist
  congr 2 <;> omega

theorem emod_succ_eq (a w : Int) (h0 : 0 ≤ a) (h1 : a < w) :
    (a + 1) % w = if a + 1 = w then 0 else a + 1 := by
  split_ifs with h
  · simp [h]
  · exact Int.emod_eq_of_lt (by omega) (by omega)

theorem emod_pred_eq (a w : Int) (h0 : 0 ≤ a) (h1 : a < w) :
    (a - 1) % w = if a = 0 then w - 1 else a - 1 := by
  split_ifs with h
  · subst h
    rw [show ((0:Int) - 1) = (w - 1) + w * (-1) by ring, Int.add_mul_emod_self_left]
    exact Int.emod_eq_of_lt (by omega) (by omega)
  · exact Int.emod_eq_of_lt (by omega) (by omega)

theorem wdist_succ_le (w a b : Int) (hw : 0 < w) (ha : 0 ≤ a) (ha2 : a < w)
    (hb : 0 ≤ b) (hb2 : b < w) : wdist w ((a + 1) % w) b ≤ wdist w a b + 1 := by
  rw [emod_succ_eq a w ha ha2]
  unfold wdist
  rw [min_def, min_def]
  split_ifs <;> omega

theorem wdist_pred_le (w a b : Int) (hw : 0 < w) (ha : 0 ≤ a) (ha2 : a < w)
    (hb : 0 ≤ b) (hb2 : b < w) : wdist w ((a - 1) % w) b ≤ wdist w a b + 1 := by
  rw [emod_pred_eq a w ha ha2]
  unfold wdist
  rw [min_def, min_def]
  split_ifs <;> omega

theorem wdist_descent (w a b : Int) (hw : 0 < w) (ha : 0 ≤ a) (ha2 : a < w)
    (hb : 0 ≤ b) (hb2 : b < w) (hpos : 0 < wdist w a b) :
    wdist w ((a + 1) % w) b = wdist w a b - 1 ∨
    wdist w ((a - 1) % w) b = wdist w a b - 1 := by
  rw [emod_succ_eq a w ha ha2, emod_pred_eq a w ha ha2]
  unfold wdist at *
  rw [min_def] at hpos
  rw [min_def, min_def, min_def]
  split_ifs at * <;> omega

/-! ### Finiteness of the grid -/

/-- The finite set of normalized positions of a grid. -/
def gridFinset (m : GMap) : Finset Pos :=
  (Finset.range m.width ×ˢ Finset.range m.height).image
    (fun ab => ⟨(ab.1 : Int), (ab.2 : Int)⟩)

theorem mem_gridFinset (m : GMap) (p : Pos) :
    p ∈ gridFinset m ↔ m.isNormalized p := by
  obtain ⟨x, y⟩ := p
  unfold gridFinset GMap.isNormalized
  simp only [Finset.mem_image, Finset.mem_product, Finset.mem_range, Pos.mk.injEq]
  constructor
  · rintro ⟨⟨a, b⟩, ⟨ha, hb⟩, hx, hy⟩
    simp only at hx hy ⊢
    refine ⟨?_, ?_, ?_, ?_⟩ <;> omega
  · rintro ⟨h1, h2, h3, h4⟩
    refine ⟨(x.toNat, y.toNat), ⟨?_, ?_⟩, ?_, ?_⟩ <;> simp only <;> omega

theorem card_gridFinset (m : GMap) : (gridFinset m).card = m.width * m.height := by
  unfold gridFinset
  rw [Finset.card_image_of_injective, Finset.card_product, Finset.card_range,
    Finset.card_range]
  intro a b hab
  simp only [Pos.mk.injEq] at hab
  obtain ⟨h1, h2⟩ := hab
  exact Prod.ext (by exact_mod_cast h1) (by exact_mod_cast h2)

theorem nodup_normalized_length_le (m : GMap) (l : List Pos)
    (nd : l.Nodup) (h : ∀ p ∈ l, m.isNormalized p) :
    l.length ≤ m.width * m.height := by
  have hsub : l.toFinset ⊆ gridFinset m := by
    intro p hp
    rw [mem_gridFinset]
    exact h p (List.mem_toFinset.mp hp)
  calc l.length = l.toFinset.card := (List.toFinset_card_of_nodup nd).symm
    _ ≤ (gridFinset m).card := Finset.card_le_card hsub
    _ = m.width * m.height := card_gridFinset m

/-! ### Sorted insertion into the frontier -/

theorem pushAll_length {α : Type} [LinearOrder α] (f : Direction → α × Pos)
    (l : List Direction) : ∀ q : List (α × Pos),
    (pushAll f q l).length = q.length + l.length := by
  induction l with
  | nil => intro q; simp [pushAll]
  | cons d ds ih =>
    intro q
    have h1 := ih (q.orderedInsert entryRel (f d))
    have h2 : (q.orderedInsert entryRel (f d)).length = q.length + 1 :=
      List.orderedInsert_length entryRel q (f d)
    simp only [pushAll, List.foldl_cons] at h1 ⊢
    rw [h1, h2, List.length_cons]
    omega

theorem mem_pushAll {α : Type} [LinearOrder α] (f : Direction → α × Pos)
    (l : List Direction) : ∀ (q : List (α × Pos)) (e : α × Pos),
    e ∈ pushAll f q l ↔ e ∈ q ∨ ∃ d ∈ l, e = f d := by
  induction l with
  | nil => intro q e; simp [pushAll]
  | cons d ds ih =>
    intro q e
    have h1 := ih (q.orderedInsert entryRel (f d)) e
    simp only [pushAll, List.foldl_cons] at h1 ⊢
    rw [h1, List.mem_orderedInsert]
    constructor
    · rintro ((rfl | h) | ⟨d2, hd2, rfl⟩)
      · exact Or.inr ⟨d, List.mem_cons_self d ds, rfl⟩
      · exact Or.inl h
      · exact Or.inr ⟨d2, List.mem_cons_of_mem d hd2, rfl⟩
    · rintro (h | ⟨d2, hd2, rfl⟩)
      · exact Or.inl (Or.inr h)
      · rcases List.mem_cons.mp hd2 with h2 | h2
        · subst h2; exact Or.inl (Or.inl rfl)
        · exact Or.inr ⟨d2, h2, rfl⟩

theorem pushAll_sorted {α : Type} [LinearOrder α] (f : Direction → α × Pos)
    (l : List Direction) : ∀ q : List (α × Pos),
    q.Sorted entryRel → (pushAll f q l).Sorted entryRel := by
  induction l with
  | nil => intro q hq; simpa [pushAll] using hq
  | cons d ds ih =>
    intro q hq
    simp only [pushAll, List.foldl_cons] at ih ⊢
    exact ih _ (List.Sorted.orderedInsert _ _ hq)

/-! ### Termination of the potential-field expansion -/

/-- Normalization invariant of the potential-loop state: every frontier and
seen position lies in the grid, and no position is recorded in `seen`
twice. -/
def PNorm (m : GMap) (s : PState) : Prop :=
  (∀ e ∈ s.q, m.isNormalized e.2) ∧ (∀ e ∈ s.seen, m.isNormalized e.1) ∧
    (s.seen.map Prod.fst).Nodup

/-- Termination measure of the potential loop: unseen grid cells weighted by
five, plus the frontier length. -/
def potMeasure (m : GMap) (s : PState) : Nat :=
  5 * (m.width * m.height - s.seen.length) + s.q.length

theorem potBody_step (m : GMap) (pid : Int) (hw : 0 < m.width) (hh : 0 < m.height)
    (dist : Nat) (p : Pos) (rest : List (Nat × Pos)) (seen : List (Pos × Nat)) (pot : Int)
    (hq : PNorm m ⟨(dist, p) :: rest, seen, pot⟩) :
    PNorm m (m.potBody pid dist p rest seen pot) ∧
      potMeasure m (m.potBody pid dist p rest seen pot) <
        potMeasure m ⟨(dist, p) :: rest, seen, pot⟩ := by
  obtain ⟨hqn, hsn, hnd⟩ := hq
  have hp : m.isNormalized p := hqn (dist, p) (List.mem_cons_self _ _)
  have hrest : ∀ e ∈ rest, m.isNormalized e.2 :=
    fun e he => hqn e (List.mem_cons_of_mem _ he)
  have hLseen : seen.length ≤ m.width * m.height := by
    have := nodup_normalized_length_le m (seen.map Prod.fst) hnd
      (by
        intro x hx
        obtain ⟨e, he, rfl⟩ := List.mem_map.mp hx
        exact hsn e he)
    simpa using this
  by_cases hseen : (alookup seen p).isSome
  · have hb : m.potBody pid dist p rest seen pot = ⟨rest, seen, pot⟩ := by
      unfold GMap.potBody
      rw [if_pos hseen]
    rw [hb]
    refine ⟨⟨hrest, hsn, hnd⟩, ?_⟩
    unfold potMeasure
    simp only [List.length_cons]
    omega
  · have hnotin : p ∉ seen.map Prod.fst := by
      rw [← alookup_eq_none_iff]
      exact Option.not_isSome_iff_eq_none.mp hseen
    have hsn2 : ∀ e ∈ (p, dist) :: seen, m.isNormalized (Prod.fst e) := by
      intro e he
      rcases List.mem_cons.mp he with rfl | h2
      · exact hp
      · exact hsn e h2
    have hnd2 : (((p, dist) :: seen).map Prod.fst).Nodup := by
      simp only [List.map_cons, List.nodup_cons]
      exact ⟨hnotin, hnd⟩
    have hLseen2 : seen.length + 1 ≤ m.width * m.height := by
      have := nodup_normalized_length_le m (((p, dist) :: seen).map Prod.fst) hnd2
        (by
          intro x hx
          obtain ⟨e, he, rfl⟩ := List.mem_map.mp hx
          exact hsn2 e he)
      simpa using this
    rcases hship : (m.getCell p).ship with _ | sid
    · have hb : m.potBody pid dist p rest seen pot =
          ⟨pushAll (fun d => (dist + 1, m.normalize (p.directional_offset d))) rest cardinals,
           (p, dist) :: seen,
           match (m.getCell p).struct with
           | some sid2 =>
             if sid2 = pid then
               pot + (-1000) * (((m.width : Int) + (m.height : Int)) - (dist : Int))
             else
               pot + (m.getCell p).halite * (((m.width : Int) + (m.height : Int)) - (dist : Int))
                 * (((m.width : Int) + (m.height : Int)) - (dist : Int))
           | none =>
             pot + (m.getCell p).halite * (((m.width : Int) + (m.height : Int)) - (dist : Int))
               * (((m.width : Int) + (m.height : Int)) - (dist : Int))⟩ := by
        unfold GMap.potBody
        rw [if_neg hseen, hship]
      rw [hb]
      refine ⟨⟨?_, hsn2, hnd2⟩, ?_⟩
      · intro e he
        rcases (mem_pushAll _ _ _ _).mp he with h2 | ⟨d, _, rfl⟩
        · exact hrest e h2
        · exact m.normalize_isNormalized hw hh _
      · unfold potMeasure
        simp only [List.length_cons, pushAll_length]
        have h4 : cardinals.length = 4 := rfl
        rw [h4]
        omega
    · have hb : m.potBody pid dist p rest seen pot = ⟨rest, (p, dist) :: seen, pot⟩ := by
        unfold GMap.potBody
        rw [if_neg hseen, hship]
      rw [hb]
      refine ⟨⟨hrest, hsn2, hnd2⟩, ?_⟩
      unfold potMeasure
      simp only [List.length_cons]
      omega

theorem potGo_total (m : GMap) (pid : Int) (hw : 0 < m.width) (hh : 0 < m.height) :
    ∀ (fuel : Nat) (s : PState), PNorm m s → potMeasure m s < fuel →
      ∃ s2, m.potGo pid fuel s = some s2 ∧ s2.q = [] := by
  intro fuel
  induction fuel with
  | zero => intro s _ hm; omega
  | succ n ih =>
    intro s hn hm
    obtain ⟨q, seen, pot⟩ := s
    match hq : q with
    | [] => exact ⟨⟨[], seen, pot⟩, by rw [GMap.potGo], rfl⟩
    | (dist, p) :: rest =>
      obtain ⟨hn2, hm2⟩ := potBody_step m pid hw hh dist p rest seen pot hn
      obtain ⟨s2, h2, h3⟩ := ih (m.potBody pid dist p rest seen pot) hn2
        (by
          have : potMeasure m ⟨(dist, p) :: rest, seen, pot⟩ < n + 1 := hm
          omega)
      exact ⟨s2, by rw [GMap.potGo]; exact h2, h3⟩

/-- `_calculate_potential_cell` always computes a value within the fuel
bound: only finitely many entries are ever pushed, since every pushed
neighbour is normalized and `seen` lets each position expand at most once. -/
theorem calculate_potential_cell_total (m : GMap) (source : Pos) (pid : Int)
    (hw : 0 < m.width) (hh : 0 < m.height) (hs : m.isNormalized source) :
    ∃ v : Int, m.calculate_potential_cell source pid = some v := by
  have h0 : PNorm m ⟨[(0, source)], [], 0⟩ := by
    refine ⟨?_, ?_, ?_⟩
    · intro e he
      rcases List.mem_singleton.mp he with rfl
      exact hs
    · intro e he
      simp at he
    · simp
  have hμ : potMeasure m ⟨[(0, source)], [], 0⟩ < 5 * (m.width * m.height) + 2 := by
    unfold potMeasure
    simp only [List.length_singleton, List.length_nil]
    omega
  obtain ⟨s2, h2, _⟩ := potGo_total m pid hw hh _ _ h0 hμ
  refine ⟨s2.pot, ?_⟩
  unfold GMap.calculate_potential_cell
  rw [h2]
  rfl

/-! ### Concrete maps used as witnesses and counterexamples -/

/-- A 1×1 grid whose only cell holds 5 halite and nothing else. -/
def m11 : GMap := ⟨1, 1, fun _ => ⟨5, none, none⟩⟩

/-- A 1×1 grid whose only cell holds 7 halite and a ship. -/
def m11occ : GMap := ⟨1, 1, fun _ => ⟨7, some 1, none⟩⟩

/-- An empty 4×4 grid. -/
def m44 : GMap := ⟨4, 4, fun _ => ⟨0, none, none⟩⟩

/-- An empty 5×5 grid. -/
def m55 : GMap := ⟨5, 5, fun _ => ⟨0, none, none⟩⟩

/-! ### Claim C10 -/

/-- C10: for every source coordinate on a finite grid (width ≥ 1, height ≥ 1),
`_calculate_potential_cell` terminates: every pushed neighbour is normalized
into the finite grid and the seen-set expands each coordinate at most once,
so only finitely many entries are pushed and the frontier empties (within
the explicit fuel bound baked into `calculate_potential_cell`). -/
theorem claim10_potential_expansion_terminates (m : GMap) (source : Pos)
    (playerId : Int) (hw : 0 < m.width) (hh : 0 < m.height)
    (hs : m.isNormalized source) :
    ∃ v : Int, m.calculate_potential_cell source playerId = some v :=
  calculate_potential_cell_total m source playerId hw hh hs

/-- Witness for C10 at a concrete grid. -/
theorem claim10_witness :
    ∃ v : Int, m11.calculate_potential_cell ⟨0, 0⟩ 3 = some v :=
  claim10_potential_expansion_terminates m11 ⟨0, 0⟩ 3 (by decide) (by decide)
    (by decide)

/-! ### Claim C1 -/

/-- C1 counterexample: a finalized occupied coordinate does NOT push its four
cardinal neighbours onto the frontier.  On the 1×1 occupied grid, popping the
unseen occupied coordinate `(0,0)` leaves the frontier empty — the four
neighbour entries `(1, (0,0))` the claim predicts are not pushed (the
coordinate does contribute 0, but expansion stops, it does not continue
through the occupied cell). -/
theorem claim1_counterexample :
    ((m11occ.getCell ⟨0, 0⟩).ship).isSome ∧
    alookup ([] : List (Pos × Nat)) ⟨0, 0⟩ = none ∧
    m11occ.potBody 0 0 ⟨0, 0⟩ [] [] 0 = ⟨[], [(⟨0, 0⟩, 0)], 0⟩ := by
  refine ⟨by decide, rfl, by decide⟩

/-- C1 amended: in `_calculate_potential_cell`, a newly finalized coordinate
whose cell is occupied by a ship contributes 0 to the potential and pushes
nothing: its neighbours are not added to the frontier, so expansion stops at
occupied cells. -/
theorem claim1_amended_occupied_cell_stops_expansion (m : GMap) (playerId : Int)
    (dist : Nat) (p : Pos) (rest : List (Nat × Pos)) (seen : List (Pos × Nat))
    (pot : Int) (hseen : alookup seen p = none)
    (hocc : ((m.getCell p).ship).isSome) :
    m.potBody playerId dist p rest seen pot = ⟨rest, (p, dist) :: seen, pot⟩ := by
  obtain ⟨sid, hship⟩ := Option.isSome_iff_exists.mp hocc
  unfold GMap.potBody
  rw [if_neg (by simp [hseen]), hship]

/-- Witness for the amended C1 at a concrete input. -/
theorem claim1_amended_witness :
    m11occ.potBody 5 2 ⟨0, 0⟩ [] [] 9 = ⟨[], [(⟨0, 0⟩, 2)], 9⟩ :=
  claim1_amended_occupied_cell_stops_expansion m11occ 5 2 ⟨0, 0⟩ [] [] 9 rfl
    (by decide)

/-! ### Claim C3 -/

/-- C3: the order `entryRel` under which the embedded priority queues of
`_calculate_potential_cell` (priorities in `ℕ`) and `dijkstra_map`
(priorities in `ℚ`) compare their `(priority, position)` entries is total; in
particular two entries with equal priority are always comparable through the
position tie-break, so no push or pop ever needs an unsupported comparison. -/
theorem claim3_priority_entries_totally_ordered :
    (∀ e1 e2 : ℚ × Pos, entryRel e1 e2 ∨ entryRel e2 e1) ∧
    (∀ e1 e2 : Nat × Pos, entryRel e1 e2 ∨ entryRel e2 e1) ∧
    (∀ (c : ℚ) (p1 p2 : Pos), entryRel (c, p1) (c, p2) ∨ entryRel (c, p2) (c, p1)) :=
  ⟨fun e1 e2 => IsTotal.total e1 e2, fun e1 e2 => IsTotal.total e1 e2,
   fun c p1 p2 => IsTotal.total (c, p1) (c, p2)⟩

/-! ### Claim C9 -/

/-- C9: `calculate_distance` equals the toroidal Manhattan metric (normalize
both points, component-wise absolute deltas, per axis the smaller of the
direct and the wrapped gap); it is symmetric; and on a 5×5 grid the distance
from (0,0) to (4,0) is 1, not 4. -/
theorem claim9_calculate_distance_toroidal_metric :
    (∀ (m : GMap) (a b : Pos),
      m.calculate_distance a b =
        wdist (m.width : Int) (m.normalize a).x (m.normalize b).x +
        wdist (m.height : Int) (m.normalize a).y (m.normalize b).y) ∧
    (∀ (m : GMap) (a b : Pos), m.calculate_distance a b = m.calculate_distance b a) ∧
    m55.calculate_distance ⟨0, 0⟩ ⟨4, 0⟩ = 1 := by
  refine ⟨fun m a b => rfl, fun m a b => ?_, by decide⟩
  unfold GMap.calculate_distance
  rw [wdist_comm, wdist_comm ((m.height : Int))]

/-! ### Claim C4 -/

/-- C4 counterexample: on a 4×4 grid, from (0,0) to (2,0) the absolute
x-delta is 2 ≤ width/2 (i.e. `2 * delta ≤ width`), so the claim demands the
naive bearing East; the code compares with strict `<` against `width / 2`
and therefore returns the inverted bearing West. -/
theorem claim4_counterexample :
    2 * (((m44.normalize ⟨2, 0⟩).x - (m44.normalize ⟨0, 0⟩).x).natAbs : Int)
      ≤ (m44.width : Int) ∧
    xCardinality (m44.normalize ⟨0, 0⟩) (m44.normalize ⟨2, 0⟩) = Direction.east ∧
    m44.get_unsafe_moves ⟨0, 0⟩ ⟨2, 0⟩ = [Direction.west] := by
  refine ⟨by decide, by decide, by decide⟩

/-- C4 amended: `get_unsafe_moves` returns between 0 and 2 directions; on
each axis with nonzero delta it emits the naive bearing exactly when the
delta is strictly less than half the extent and the inverted bearing when
the delta is at least half the extent (the x entry first, the y entry last);
and the chosen variant's route length along that axis (`delta` for the naive
bearing, `extent - delta` for the inverted one) always equals the toroidal
axis gap `wdist`, i.e. the shorter way around the torus — at delta exactly
half the extent the two ways tie. -/
theorem claim4_amended_get_unsafe_moves (m : GMap) (a b : Pos)
    (hw : 0 < m.width) (hh : 0 < m.height) :
    (m.get_unsafe_moves a b).length ≤ 2 ∧
    (((m.normalize b).x - (m.normalize a).x).natAbs ≠ 0 →
      (m.get_unsafe_moves a b).head? =
        some (if 2 * ((((m.normalize b).x - (m.normalize a).x).natAbs : Int)) < (m.width : Int)
          then xCardinality (m.normalize a) (m.normalize b)
          else (xCardinality (m.normalize a) (m.normalize b)).invert)) ∧
    (((m.normalize b).y - (m.normalize a).y).natAbs ≠ 0 →
      (m.get_unsafe_moves a b).getLast? =
        some (if 2 * ((((m.normalize b).y - (m.normalize a).y).natAbs : Int)) < (m.height : Int)
          then yCardinality (m.normalize a) (m.normalize b)
          else (yCardinality (m.normalize a) (m.normalize b)).invert)) ∧
    ((if 2 * ((((m.normalize b).x - (m.normalize a).x).natAbs : Int)) < (m.width : Int)
        then ((((m.normalize b).x - (m.normalize a).x).natAbs : Int))
        else (m.width : Int) - ((((m.normalize b).x - (m.normalize a).x).natAbs : Int)))
      = wdist (m.width : Int) (m.normalize a).x (m.normalize b).x) ∧
    ((if 2 * ((((m.normalize b).y - (m.normalize a).y).natAbs : Int)) < (m.height : Int)
        then ((((m.normalize b).y - (m.normalize a).y).natAbs : Int))
        else (m.height : Int) - ((((m.normalize b).y - (m.normalize a).y).natAbs : Int)))
      = wdist (m.height : Int) (m.normalize a).y (m.normalize b).y) := by
  obtain ⟨ha1, ha2, ha3, ha4⟩ := m.normalize_isNormalized hw hh a
  obtain ⟨hb1, hb2, hb3, hb4⟩ := m.normalize_isNormalized hw hh b
  refine ⟨?_, ?_, ?_, ?_, ?_⟩
  · unfold GMap.get_unsafe_moves
    split_ifs <;> simp
  · intro hdx
    unfold GMap.get_unsafe_moves
    rw [if_pos hdx]
    rfl
  · intro hdy
    unfold GMap.get_unsafe_moves
    rw [if_pos hdy]
    split_ifs <;> rfl
  · unfold wdist
    rw [min_def]
    split_ifs <;> omega
  · unfold wdist
    rw [min_def]
    split_ifs <;> omega

/-- Witness for the amended C4 at a concrete input. -/
theorem claim4_amended_witness :
    (m44.get_unsafe_moves ⟨0, 0⟩ ⟨1, 2⟩).length ≤ 2 :=
  (claim4_amended_get_unsafe_moves m44 ⟨0, 0⟩ ⟨1, 2⟩ (by decide) (by decide)).1

/-! ### Claim C2 -/

/-- C2 counterexample: a resource update with a negative amount is not
rejected — it overwrites the stored amount.  On the 1×1 grid holding 5
halite, applying the update `(0, 0, -3)` stores −3 instead of leaving 5. -/
theorem claim2_counterexample :
    (m11.getCell ⟨0, 0⟩).halite = 5 ∧
    ((m11.apply_resource_update 0 0 (-3)).getCell ⟨0, 0⟩).halite = -3 := by
  refine ⟨by decide, by decide⟩

/-- C2 amended: every per-turn resource update — negative amounts and
out-of-range coordinates included — unconditionally overwrites the amount of
the addressed (normalized) cell and leaves every other cell unchanged;
nothing is rejected or logged. -/
theorem claim2_amended_update_overwrites (m : GMap) (x y e : Int) (p : Pos)
    (hp : m.normalize p = m.normalize ⟨x, y⟩) :
    ((m.apply_resource_update x y e).getCell p).halite = e ∧
    (∀ q : Pos, m.normalize q ≠ m.normalize ⟨x, y⟩ →
      (m.apply_resource_update x y e).getCell q = m.getCell q) := by
  constructor
  · unfold GMap.apply_resource_update GMap.getCell GMap.normalize at *
    simp only
    rw [if_pos hp]
  · intro q hq
    unfold GMap.apply_resource_update GMap.getCell GMap.normalize at *
    simp only
    rw [if_neg hq]

/-- Witness for the amended C2 at a concrete input. -/
theorem claim2_amended_witness :
    ((m11.apply_resource_update 0 0 (-3)).getCell ⟨0, 0⟩).halite = -3 :=
  (claim2_amended_update_overwrites m11 0 0 (-3) ⟨0, 0⟩ (by decide)).1

/-! ### Claim C7 -/

theorem nbGo_spec (m : GMap) (cm : List (Pos × ℚ)) (shipPos : Pos) :
    ∀ (ds : List Direction) (best : ℚ) (bd : Direction),
      (∀ d ∈ ds, (alookup cm (m.normalize (shipPos.directional_offset d))).isSome) →
      ∃ r, m.nbGo cm shipPos ds best bd = some r ∧
        (r = bd ∨ (r ∈ ds ∧ ∃ cr,
          alookup cm (m.normalize (shipPos.directional_offset r)) = some cr ∧
            cr < best)) := by
  intro ds
  induction ds with
  | nil => intro best bd _; exact ⟨bd, rfl, Or.inl rfl⟩
  | cons d rest ih =>
    intro best bd hsome
    obtain ⟨v, hv⟩ := Option.isSome_iff_exists.mp
      (hsome d (List.mem_cons_self _ _))
    have hrest : ∀ d2 ∈ rest,
        (alookup cm (m.normalize (shipPos.directional_offset d2))).isSome :=
      fun d2 h2 => hsome d2 (List.mem_cons_of_mem _ h2)
    by_cases hlt : v < best
    · obtain ⟨r, hr, hp⟩ := ih v d hrest
      refine ⟨r, ?_, ?_⟩
      · simp only [GMap.nbGo, hv, if_pos hlt]
        exact hr
      · rcases hp with rfl | ⟨hmem, cr, hcr, hlt2⟩
        · exact Or.inr ⟨List.mem_cons_self _ _, v, hv, hlt⟩
        · exact Or.inr ⟨List.mem_cons_of_mem _ hmem, cr, hcr, hlt2.trans hlt⟩
    · obtain ⟨r, hr, hp⟩ := ih best bd hrest
      refine ⟨r, ?_, ?_⟩
      · simp only [GMap.nbGo, hv, if_neg hlt]
        exact hr
      · rcases hp with rfl | ⟨hmem, cr, hcr, hlt2⟩
        · exact Or.inl rfl
        · exact Or.inr ⟨List.mem_cons_of_mem _ hmem, cr, hcr, hlt2⟩

/-- C7: whenever the cost map holds the ship's position and its four
normalized cardinal neighbours, `navigate_back` returns a direction; the
result is either `Still` or a cardinal direction whose neighbour costs
strictly less than the ship's cell (ties never override the incumbent, so if
no neighbour is strictly cheaper — in particular when the ship's cell costs
0 and all neighbour costs are nonnegative — it returns `Still`). -/
theorem claim7_navigate_back (m : GMap) (cm : List (Pos × ℚ)) (shipPos : Pos)
    (c0 : ℚ) (h0 : alookup cm shipPos = some c0)
    (hn : ∀ d ∈ cardinals,
      (alookup cm (m.normalize (shipPos.directional_offset d))).isSome) :
    ∃ r, m.navigate_back shipPos cm = some r ∧
      (r = Direction.still ∨ (r ∈ cardinals ∧ ∃ cr,
        alookup cm (m.normalize (shipPos.directional_offset r)) = some cr ∧
          cr < c0)) ∧
      ((∀ d ∈ cardinals, ∀ v,
          alookup cm (m.normalize (shipPos.directional_offset d)) = some v →
            c0 ≤ v) →
        r = Direction.still) := by
  obtain ⟨r, hr, hp⟩ := nbGo_spec m cm shipPos cardinals c0 .still hn
  refine ⟨r, ?_, hp, ?_⟩
  · unfold GMap.navigate_back
    rw [h0]
    exact hr
  · intro hge
    rcases hp with rfl | ⟨hmem, cr, hcr, hlt⟩
    · rfl
    · exact absurd hlt (not_lt.mpr (hge r hmem cr hcr))

/-- A concrete 5×5 cost map: cost 0 at the base (0,0) and 51 at its four
neighbours. -/
def cmW : List (Pos × ℚ) :=
  [(⟨0, 0⟩, 0), (⟨1, 0⟩, 51), (⟨4, 0⟩, 51), (⟨0, 1⟩, 51), (⟨0, 4⟩, 51)]

/-- Witness for C7: at the base of the concrete cost map `cmW`,
`navigate_back` returns `Still`. -/
theorem claim7_witness :
    ∃ r, m55.navigate_back ⟨0, 0⟩ cmW = some r ∧ r = Direction.still := by
  obtain ⟨r, hr, _, h3⟩ := claim7_navigate_back m55 cmW ⟨0, 0⟩ 0 (by decide)
    (by decide)
  refine ⟨r, hr, h3 ?_⟩
  intro d hd v hv
  fin_cases hd
  · rw [show alookup cmW (m55.normalize
        (Pos.directional_offset ⟨0, 0⟩ Direction.north)) = some 51 from by decide]
      at hv
    rw [Option.some_inj] at hv
    rw [← hv]
    norm_num
  · rw [show alookup cmW (m55.normalize
        (Pos.directional_offset ⟨0, 0⟩ Direction.south)) = some 51 from by decide]
      at hv
    rw [Option.some_inj] at hv
    rw [← hv]
    norm_num
  · rw [show alookup cmW (m55.normalize
        (Pos.directional_offset ⟨0, 0⟩ Direction.east)) = some 51 from by decide]
      at hv
    rw [Option.some_inj] at hv
    rw [← hv]
    norm_num
  · rw [show alookup cmW (m55.normalize
        (Pos.directional_offset ⟨0, 0⟩ Direction.west)) = some 51 from by decide]
      at hv
    rw [Option.some_inj] at hv
    rw [← hv]
    norm_num

/-! ### Claim C8 -/

/-- Normalization invariant of the Dijkstra loop state. -/
def DNorm (m : GMap) (s : DState) : Prop :=
  (∀ e ∈ s.q, m.isNormalized e.2) ∧ (∀ e ∈ s.cmap, m.isNormalized e.1) ∧
    (s.cmap.map Prod.fst).Nodup

/-- Termination measure of the Dijkstra loop. -/
def dMeasure (m : GMap) (s : DState) : Nat :=
  5 * (m.width * m.height - s.cmap.length) + s.q.length

theorem dstep_cons (m : GMap) (cost : ℚ) (p : Pos) (rest : List (ℚ × Pos))
    (cmap : List (Pos × ℚ)) (hsum : Int) :
    m.dstep ⟨(cost, p) :: rest, cmap, hsum⟩ =
      if (alookup cmap p).isSome then ⟨rest, cmap, hsum⟩
      else
        ⟨pushAll (fun d =>
            (cost + ((m.getCell (m.normalize (p.directional_offset d))).halite : ℚ) / 10 + 50,
             m.normalize (p.directional_offset d))) rest cardinals,
         (p, cost) :: cmap,
         hsum + (m.getCell p).halite +
           (cardinals.map
             (fun d => (m.getCell (m.normalize (p.directional_offset d))).halite)).sum⟩ := rfl

theorem dijkstraGo_succ_nil (m : GMap) (n : Nat) (cmap : List (Pos × ℚ))
    (hsum : Int) : m.dijkstraGo (n + 1) ⟨[], cmap, hsum⟩ = some ⟨[], cmap, hsum⟩ := rfl

theorem dijkstraGo_succ_cons (m : GMap) (n : Nat) (cost : ℚ) (p : Pos)
    (rest : List (ℚ × Pos)) (cmap : List (Pos × ℚ)) (hsum : Int) :
    m.dijkstraGo (n + 1) ⟨(cost, p) :: rest, cmap, hsum⟩ =
      m.dijkstraGo n (m.dstep ⟨(cost, p) :: rest, cmap, hsum⟩) := rfl

theorem dstep_step (m : GMap) (hw : 0 < m.width) (hh : 0 < m.height)
    (cost : ℚ) (p : Pos) (rest : List (ℚ × Pos)) (cmap : List (Pos × ℚ))
    (hsum : Int) (hn : DNorm m ⟨(cost, p) :: rest, cmap, hsum⟩) :
    DNorm m (m.dstep ⟨(cost, p) :: rest, cmap, hsum⟩) ∧
      dMeasure m (m.dstep ⟨(cost, p) :: rest, cmap, hsum⟩) <
        dMeasure m ⟨(cost, p) :: rest, cmap, hsum⟩ := by
  obtain ⟨hqn, hcn, hnd⟩ := hn
  · have hp : m.isNormalized p := hqn (cost, p) (List.mem_cons_self _ _)
    have hrest : ∀ e ∈ rest, m.isNormalized e.2 :=
      fun e he => hqn e (List.mem_cons_of_mem _ he)
    have hLc : cmap.length ≤ m.width * m.height := by
      have := nodup_normalized_length_le m (cmap.map Prod.fst) hnd
        (by
          intro x hx
          obtain ⟨e, he, rfl⟩ := List.mem_map.mp hx
          exact hcn e he)
      simpa using this
    by_cases hmem : (alookup cmap p).isSome
    · have hb : m.dstep ⟨(cost, p) :: rest, cmap, hsum⟩ = ⟨rest, cmap, hsum⟩ := by
        rw [dstep_cons, if_pos hmem]
      rw [hb]
      refine ⟨⟨hrest, hcn, hnd⟩, ?_⟩
      unfold dMeasure
      simp only [List.length_cons]
      omega
    · have hnotin : p ∉ cmap.map Prod.fst := by
        rw [← alookup_eq_none_iff]
        exact Option.not_isSome_iff_eq_none.mp hmem
      have hcn2 : ∀ e ∈ (p, cost) :: cmap, m.isNormalized (Prod.fst e) := by
        intro e he
        rcases List.mem_cons.mp he with rfl | h2
        · exact hp
        · exact hcn e h2
      have hnd2 : (((p, cost) :: cmap).map Prod.fst).Nodup := by
        simp only [List.map_cons, List.nodup_cons]
        exact ⟨hnotin, hnd⟩
      have hLc2 : cmap.length + 1 ≤ m.width * m.height := by
        have := nodup_normalized_length_le m (((p, cost) :: cmap).map Prod.fst) hnd2
          (by
            intro x hx
            obtain ⟨e, he, rfl⟩ := List.mem_map.mp hx
            exact hcn2 e he)
        simpa using this
      have hb : m.dstep ⟨(cost, p) :: rest, cmap, hsum⟩ =
          ⟨pushAll (fun d =>
              (cost + ((m.getCell (m.normalize (p.directional_offset d))).halite : ℚ) / 10 + 50,
               m.normalize (p.directional_offset d))) rest cardinals,
           (p, cost) :: cmap,
           hsum + (m.getCell p).halite +
             (cardinals.map
               (fun d => (m.getCell (m.normalize (p.directional_offset d))).halite)).sum⟩ := by
        rw [dstep_cons, if_neg hmem]
      rw [hb]
      refine ⟨⟨?_, hcn2, hnd2⟩, ?_⟩
      · intro e he
        rcases (mem_pushAll _ _ _ _).mp he with h2 | ⟨d, _, rfl⟩
        · exact hrest e h2
        · exact m.normalize_isNormalized hw hh _
      · unfold dMeasure
        simp only [List.length_cons, pushAll_length]
        have h4 : cardinals.length = 4 := rfl
        rw [h4]
        omega

theorem dijkstraGo_total (m : GMap) (hw : 0 < m.width) (hh : 0 < m.height)
    (P : DState → Prop)
    (hstep : ∀ s : DState, s.q ≠ [] → DNorm m s → P s → P (m.dstep s)) :
    ∀ (fuel : Nat) (s : DState), DNorm m s → P s → dMeasure m s < fuel →
      ∃ s2, m.dijkstraGo fuel s = some s2 ∧ s2.q = [] ∧ DNorm m s2 ∧ P s2 := by
  intro fuel
  induction fuel with
  | zero => intro s _ _ hm; omega
  | succ n ih =>
    intro s hn hP hm
    obtain ⟨q, cmap, hsum⟩ := s
    match hq : q with
    | [] =>
      subst hq
      exact ⟨⟨[], cmap, hsum⟩, dijkstraGo_succ_nil m n cmap hsum, rfl, hn, hP⟩
    | (cost, p) :: rest =>
      subst hq
      have hne : (⟨(cost, p) :: rest, cmap, hsum⟩ : DState).q ≠ [] := by simp
      obtain ⟨hn2, hm2⟩ := dstep_step m hw hh cost p rest cmap hsum hn
      have hm3 : dMeasure m ⟨(cost, p) :: rest, cmap, hsum⟩ < n + 1 := hm
      obtain ⟨s2, h2, h3, h4, h5⟩ := ih (m.dstep ⟨(cost, p) :: rest, cmap, hsum⟩)
        hn2 (hstep ⟨(cost, p) :: rest, cmap, hsum⟩ hne hn hP) (by omega)
      exact ⟨s2, by rw [dijkstraGo_succ_cons]; exact h2, h3, h4, h5⟩

/-- The closure invariant: every cardinal neighbour of a finalized position
is finalized itself or still sits on the frontier. -/
def DClosure (m : GMap) (s : DState) : Prop :=
  ∀ p ∈ s.cmap.map Prod.fst, ∀ d ∈ cardinals,
    m.normalize (p.directional_offset d) ∈ s.cmap.map Prod.fst ∨
      ∃ k, (k, m.normalize (p.directional_offset d)) ∈ s.q

/-- The base is finalized or still on the frontier. -/
def DBase (base : Pos) (s : DState) : Prop :=
  base ∈ s.cmap.map Prod.fst ∨ ∃ k, (k, base) ∈ s.q

theorem dstep_preserves_closure_base (m : GMap) (base : Pos) (cost : ℚ)
    (p : Pos) (rest : List (ℚ × Pos)) (cmap : List (Pos × ℚ)) (hsum : Int)
    (h : DClosure m ⟨(cost, p) :: rest, cmap, hsum⟩ ∧
      DBase base ⟨(cost, p) :: rest, cmap, hsum⟩) :
    DClosure m (m.dstep ⟨(cost, p) :: rest, cmap, hsum⟩) ∧
      DBase base (m.dstep ⟨(cost, p) :: rest, cmap, hsum⟩) := by
  obtain ⟨hcl, hba⟩ := h
  · by_cases hmem : (alookup cmap p).isSome
    · have hpk : p ∈ cmap.map Prod.fst := (alookup_isSome_iff cmap p).mp hmem
      have hb : m.dstep ⟨(cost, p) :: rest, cmap, hsum⟩ = ⟨rest, cmap, hsum⟩ := by
        rw [dstep_cons, if_pos hmem]
      rw [hb]
      constructor
      · intro p2 hp2 d hd
        rcases hcl p2 hp2 d hd with h2 | ⟨k, hk⟩
        · exact Or.inl h2
        · rcases List.mem_cons.mp hk with h3 | h3
          · refine Or.inl ?_
            have : m.normalize (p2.directional_offset d) = p := congrArg Prod.snd h3
            rw [this]
            exact hpk
          · exact Or.inr ⟨k, h3⟩
      · rcases hba with h2 | ⟨k, hk⟩
        · exact Or.inl h2
        · rcases List.mem_cons.mp hk with h3 | h3
          · refine Or.inl ?_
            have : base = p := congrArg Prod.snd h3
            rw [this]
            exact hpk
          · exact Or.inr ⟨k, h3⟩
    · have hb : m.dstep ⟨(cost, p) :: rest, cmap, hsum⟩ =
          ⟨pushAll (fun d =>
              (cost + ((m.getCell (m.normalize (p.directional_offset d))).halite : ℚ) / 10 + 50,
               m.normalize (p.directional_offset d))) rest cardinals,
           (p, cost) :: cmap,
           hsum + (m.getCell p).halite +
             (cardinals.map
               (fun d => (m.getCell (m.normalize (p.directional_offset d))).halite)).sum⟩ := by
        rw [dstep_cons, if_neg hmem]
      rw [hb]
      constructor
      · intro p2 hp2 d hd
        simp only [List.map_cons, List.mem_cons] at hp2
        rcases hp2 with rfl | hp2
        · refine Or.inr ⟨cost + ((m.getCell (m.normalize (p2.directional_offset d))).halite : ℚ) / 10 + 50, ?_⟩
          exact (mem_pushAll _ _ _ _).mpr (Or.inr ⟨d, hd, rfl⟩)
        · rcases hcl p2 hp2 d hd with h2 | ⟨k, hk⟩
          · exact Or.inl (by simp only [List.map_cons, List.mem_cons]; exact Or.inr h2)
          · rcases List.mem_cons.mp hk with h3 | h3
            · refine Or.inl ?_
              have : m.normalize (p2.directional_offset d) = p := congrArg Prod.snd h3
              rw [this]
              simp
            · exact Or.inr ⟨k, (mem_pushAll _ _ _ _).mpr (Or.inl h3)⟩
      · rcases hba with h2 | ⟨k, hk⟩
        · exact Or.inl (by simp only [List.map_cons, List.mem_cons]; exact Or.inr h2)
        · rcases List.mem_cons.mp hk with h3 | h3
          · refine Or.inl ?_
            have : base = p := congrArg Prod.snd h3
            rw [this]
            simp
          · exact Or.inr ⟨k, (mem_pushAll _ _ _ _).mpr (Or.inl h3)⟩

/-- Reachability from the base by normalized cardinal steps: the 4-neighbour
connectivity of the torus. -/
inductive Reach (m : GMap) (base : Pos) : Pos → Prop where
  | refl : Reach m base base
  | step (p : Pos) (d : Direction) (hd : d ∈ cardinals) (hp : Reach m base p) :
      Reach m base (m.normalize (p.directional_offset d))

theorem reach_east_k (m : GMap) (base q : Pos) (hq : Reach m base q)
    (hqn : m.isNormalized q) :
    ∀ k : Nat, Reach m base (m.normalize ⟨q.x + (k : Int), q.y⟩) := by
  intro k
  induction k with
  | zero =>
    have h0 : m.normalize ⟨q.x + ((0 : Nat) : Int), q.y⟩ = q := by
      rw [show (⟨q.x + ((0 : Nat) : Int), q.y⟩ : Pos) = q by cases q; simp]
      exact m.normalize_eq_self q hqn
    rw [h0]
    exact hq
  | succ n ihn =>
    have h1 := Reach.step (m.normalize ⟨q.x + (n : Int), q.y⟩) Direction.east
      (by simp [cardinals]) ihn
    have h2 : m.normalize ((m.normalize ⟨q.x + (n : Int), q.y⟩).directional_offset
        Direction.east) = m.normalize ⟨q.x + ((n + 1 : Nat) : Int), q.y⟩ := by
      unfold Pos.directional_offset
      rw [GMap.normalize_add_left]
      show m.normalize ⟨q.x + (n : Int) + 1, q.y + 0⟩ = _
      rw [show (⟨q.x + (n : Int) + 1, q.y + 0⟩ : Pos) =
          ⟨q.x + ((n + 1 : Nat) : Int), q.y⟩ by
        simp only [Pos.mk.injEq]
        constructor <;> push_cast <;> ring]
    rw [h2] at h1
    exact h1

theorem reach_south_k (m : GMap) (base q : Pos) (hq : Reach m base q)
    (hqn : m.isNormalized q) :
    ∀ k : Nat, Reach m base (m.normalize ⟨q.x, q.y + (k : Int)⟩) := by
  intro k
  induction k with
  | zero =>
    have h0 : m.normalize ⟨q.x, q.y + ((0 : Nat) : Int)⟩ = q := by
      rw [show (⟨q.x, q.y + ((0 : Nat) : Int)⟩ : Pos) = q by cases q; simp]
      exact m.normalize_eq_self q hqn
    rw [h0]
    exact hq
  | succ n ihn =>
    have h1 := Reach.step (m.normalize ⟨q.x, q.y + (n : Int)⟩) Direction.south
      (by simp [cardinals]) ihn
    have h2 : m.normalize ((m.normalize ⟨q.x, q.y + (n : Int)⟩).directional_offset
        Direction.south) = m.normalize ⟨q.x, q.y + ((n + 1 : Nat) : Int)⟩ := by
      unfold Pos.directional_offset
      rw [GMap.normalize_add_left]
      show m.normalize ⟨q.x + 0, q.y + (n : Int) + 1⟩ = _
      rw [show (⟨q.x + 0, q.y + (n : Int) + 1⟩ : Pos) =
          ⟨q.x, q.y + ((n + 1 : Nat) : Int)⟩ by
        simp only [Pos.mk.injEq]
        constructor <;> push_cast <;> ring]
    rw [h2] at h1
    exact h1

/-- Every normalized position is reachable from a normalized base: the torus
is connected under 4-neighbour adjacency. -/
theorem reach_all (m : GMap) (base : Pos) (hw : 0 < m.width) (hh : 0 < m.height)
    (hb : m.isNormalized base) (p : Pos) (hp : m.isNormalized p) :
    Reach m base p := by
  obtain ⟨hb1, hb2, hb3, hb4⟩ := hb
  obtain ⟨hp1, hp2, hp3, hp4⟩ := hp
  have h1 : Reach m base ⟨p.x, base.y⟩ := by
    have h2 := reach_east_k m base base Reach.refl ⟨hb1, hb2, hb3, hb4⟩
      ((p.x + (m.width : Int) - base.x).toNat)
    have hx : (base.x + (((p.x + (m.width : Int) - base.x).toNat : Int))) %
        (m.width : Int) = p.x := by
      rw [Int.toNat_of_nonneg (by omega)]
      rw [show base.x + (p.x + (m.width : Int) - base.x) =
        p.x + (m.width : Int) * 1 by ring]
      rw [Int.add_mul_emod_self_left]
      exact Int.emod_eq_of_lt hp1 hp2
    have hy : base.y % (m.height : Int) = base.y := Int.emod_eq_of_lt hb3 hb4
    have h3 : m.normalize ⟨base.x + (((p.x + (m.width : Int) - base.x).toNat : Int)),
        base.y⟩ = ⟨p.x, base.y⟩ := by
      unfold GMap.normalize
      rw [hx, hy]
    rw [h3] at h2
    exact h2
  have h4 := reach_south_k m base ⟨p.x, base.y⟩ h1 ⟨hp1, hp2, hb3, hb4⟩
    ((p.y + (m.height : Int) - base.y).toNat)
  have hyy : (base.y + (((p.y + (m.height : Int) - base.y).toNat : Int))) %
      (m.height : Int) = p.y := by
    rw [Int.toNat_of_nonneg (by omega)]
    rw [show base.y + (p.y + (m.height : Int) - base.y) =
      p.y + (m.height : Int) * 1 by ring]
    rw [Int.add_mul_emod_self_left]
    exact Int.emod_eq_of_lt hp3 hp4
  have hxx : p.x % (m.width : Int) = p.x := Int.emod_eq_of_lt hp1 hp2
  have h5 : m.normalize ⟨p.x, base.y + (((p.y + (m.height : Int) - base.y).toNat : Int))⟩
      = ⟨p.x, p.y⟩ := by
    unfold GMap.normalize
    rw [hxx, hyy]
  rw [h5] at h4
  have h6 : (⟨p.x, p.y⟩ : Pos) = p := by cases p; rfl
  rw [h6] at h4
  exact h4

/-- At a final state (empty frontier), closure plus the base invariant force
every reachable position to be finalized. -/
theorem coverage (m : GMap) (base : Pos) (s : DState) (hq : s.q = [])
    (hcl : DClosure m s) (hba : DBase base s) :
    ∀ p, Reach m base p → p ∈ s.cmap.map Prod.fst := by
  intro p hp
  induction hp with
  | refl =>
    rcases hba with h | ⟨k, hk⟩
    · exact h
    · rw [hq] at hk
      simp at hk
  | step p2 d hd hr ih =>
    rcases hcl p2 ih d hd with h | ⟨k, hk⟩
    · exact h
    · rw [hq] at hk
      simp at hk

/-! ### Claim C6 -/

/-- C6: for every grid with positive dimensions and every normalized base,
`dijkstra_map` terminates (within the fuel bound baked into its definition)
and the returned cost map holds an entry for every normalized coordinate,
each coordinate being finalized exactly once (the key list has no
duplicates). -/
theorem claim6_dijkstra_map_total (m : GMap) (base : Pos) (hw : 0 < m.width)
    (hh : 0 < m.height) (hb : m.isNormalized base) :
    ∃ cm avg, m.dijkstra_map base = some (cm, avg) ∧
      (∀ p, m.isNormalized p → (alookup cm p).isSome) ∧
      (cm.map Prod.fst).Nodup := by
  have hn0 : DNorm m ⟨[((0 : ℚ), base)], [], 0⟩ := by
    refine ⟨?_, ?_, ?_⟩
    · intro e he
      rcases List.mem_singleton.mp he with rfl
      exact hb
    · intro e he
      simp at he
    · simp
  have hP0 : DClosure m ⟨[((0 : ℚ), base)], [], 0⟩ ∧
      DBase base ⟨[((0 : ℚ), base)], [], 0⟩ := by
    constructor
    · intro p hp d hd
      simp at hp
    · exact Or.inr ⟨0, List.mem_singleton.mpr rfl⟩
  have hμ : dMeasure m ⟨[((0 : ℚ), base)], [], 0⟩ < 5 * (m.width * m.height) + 2 := by
    unfold dMeasure
    simp only [List.length_singleton, List.length_nil]
    omega
  obtain ⟨s2, h2, hq2, hn2, hcl2, hba2⟩ := dijkstraGo_total m hw hh
    (fun s => DClosure m s ∧ DBase base s)
    (fun s hne hn hP => by
      obtain ⟨q, cmap, hsum⟩ := s
      rcases q with _ | ⟨⟨cost, p⟩, rest⟩
      · exact absurd rfl hne
      · exact dstep_preserves_closure_base m base cost p rest cmap hsum hP)
    (5 * (m.width * m.height) + 2) ⟨[((0 : ℚ), base)], [], 0⟩ hn0 hP0 hμ
  refine ⟨s2.cmap, (s2.hsum : ℚ) / ((m.width * m.height : Nat) : ℚ), ?_, ?_, hn2.2.2⟩
  · unfold GMap.dijkstra_map
    rw [h2]
    rfl
  · intro p hp
    rw [alookup_isSome_iff]
    exact coverage m base s2 hq2 hcl2 hba2 p (reach_all m base hw hh hb p hp)

/-- Witness for C6 at a concrete grid. -/
theorem claim6_witness :
    ∃ cm avg, m11.dijkstra_map ⟨0, 0⟩ = some (cm, avg) ∧
      (∀ p, m11.isNormalized p → (alookup cm p).isSome) ∧
      (cm.map Prod.fst).Nodup :=
  claim6_dijkstra_map_total m11 ⟨0, 0⟩ (by decide) (by decide) (by decide)

/-! ### Metric properties of the toroidal distance -/

theorem calculate_distance_nonneg (m : GMap) (hw : 0 < m.width)
    (hh : 0 < m.height) (a b : Pos) : 0 ≤ m.calculate_distance a b := by
  obtain ⟨ha1, ha2, ha3, ha4⟩ := m.normalize_isNormalized hw hh a
  obtain ⟨hb1, hb2, hb3, hb4⟩ := m.normalize_isNormalized hw hh b
  unfold GMap.calculate_distance
  have h1 := wdist_nonneg (m.width : Int) (m.normalize a).x (m.normalize b).x
    ha1 ha2 hb1 hb2
  have h2 := wdist_nonneg (m.height : Int) (m.normalize a).y (m.normalize b).y
    ha3 ha4 hb3 hb4
  omega

theorem calculate_distance_self (m : GMap) (a : Pos) :
    m.calculate_distance a a = 0 := by
  unfold GMap.calculate_distance
  rw [wdist_self _ _ (by positivity), wdist_self _ _ (by positivity)]
  ring

theorem calculate_distance_eq_zero (m : GMap) (hw : 0 < m.width)
    (hh : 0 < m.height) (a b : Pos) (ha : m.isNormalized a)
    (hb : m.isNormalized b) (h : m.calculate_distance a b = 0) : a = b := by
  unfold GMap.calculate_distance at h
  rw [m.normalize_eq_self a ha, m.normalize_eq_self b hb] at h
  obtain ⟨ha1, ha2, ha3, ha4⟩ := ha
  obtain ⟨hb1, hb2, hb3, hb4⟩ := hb
  have h1 := wdist_nonneg (m.width : Int) a.x b.x ha1 ha2 hb1 hb2
  have h2 := wdist_nonneg (m.height : Int) a.y b.y ha3 ha4 hb3 hb4
  have h3 : wdist (m.width : Int) a.x b.x = 0 := by omega
  have h4 : wdist (m.height : Int) a.y b.y = 0 := by omega
  have h5 := wdist_eq_zero _ _ _ ha1 ha2 hb1 hb2 h3
  have h6 := wdist_eq_zero _ _ _ ha3 ha4 hb3 hb4 h4
  cases a
  cases b
  simp only at h5 h6
  rw [h5, h6]

theorem calculate_distance_lipschitz (m : GMap) (hw : 0 < m.width)
    (hh : 0 < m.height) (base p : Pos) (hp : m.isNormalized p)
    (d : Direction) (hd : d ∈ cardinals) :
    m.calculate_distance base (m.normalize (p.directional_offset d)) ≤
      m.calculate_distance base p + 1 := by
  have hw' : (0 : Int) < (m.width : Int) := by exact_mod_cast hw
  have hh' : (0 : Int) < (m.height : Int) := by exact_mod_cast hh
  obtain ⟨hb1, hb2, hb3, hb4⟩ := m.normalize_isNormalized hw hh base
  obtain ⟨hp1, hp2, hp3, hp4⟩ := hp
  have hpx : p.x % (m.width : Int) = p.x := Int.emod_eq_of_lt hp1 hp2
  have hpy : p.y % (m.height : Int) = p.y := Int.emod_eq_of_lt hp3 hp4
  have hnn : m.normalize (m.normalize (p.directional_offset d)) =
      m.normalize (p.directional_offset d) :=
    m.normalize_eq_self _ (m.normalize_isNormalized hw hh _)
  have hpp : m.normalize p = p := m.normalize_eq_self p ⟨hp1, hp2, hp3, hp4⟩
  unfold GMap.calculate_distance
  rw [hnn, hpp]
  fin_cases hd
  · -- north: (p.x, p.y - 1)
    show wdist _ _ ((⟨(p.x + 0) % _, (p.y + (-1)) % _⟩ : Pos)).x +
        wdist _ _ ((⟨(p.x + 0) % _, (p.y + (-1)) % _⟩ : Pos)).y ≤ _
    simp only
    rw [show p.x + 0 = p.x by ring, show p.y + (-1) = p.y - 1 by ring, hpx]
    rw [wdist_comm _ _ ((p.y - 1) % (m.height : Int)),
      wdist_comm (m.height : Int) (m.normalize base).y p.y]
    have := wdist_pred_le (m.height : Int) p.y (m.normalize base).y hh' hp3 hp4 hb3 hb4
    omega
  · -- south: (p.x, p.y + 1)
    show wdist _ _ ((⟨(p.x + 0) % _, (p.y + 1) % _⟩ : Pos)).x +
        wdist _ _ ((⟨(p.x + 0) % _, (p.y + 1) % _⟩ : Pos)).y ≤ _
    simp only
    rw [show p.x + 0 = p.x by ring, hpx]
    rw [wdist_comm _ _ ((p.y + 1) % (m.height : Int)),
      wdist_comm (m.height : Int) (m.normalize base).y p.y]
    have := wdist_succ_le (m.height : Int) p.y (m.normalize base).y hh' hp3 hp4 hb3 hb4
    omega
  · -- east: (p.x + 1, p.y)
    show wdist _ _ ((⟨(p.x + 1) % _, (p.y + 0) % _⟩ : Pos)).x +
        wdist _ _ ((⟨(p.x + 1) % _, (p.y + 0) % _⟩ : Pos)).y ≤ _
    simp only
    rw [show p.y + 0 = p.y by ring, hpy]
    rw [wdist_comm _ _ ((p.x + 1) % (m.width : Int)),
      wdist_comm (m.width : Int) (m.normalize base).x p.x]
    have := wdist_succ_le (m.width : Int) p.x (m.normalize base).x hw' hp1 hp2 hb1 hb2
    omega
  · -- west: (p.x - 1, p.y)
    show wdist _ _ ((⟨(p.x + (-1)) % _, (p.y + 0) % _⟩ : Pos)).x +
        wdist _ _ ((⟨(p.x + (-1)) % _, (p.y + 0) % _⟩ : Pos)).y ≤ _
    simp only
    rw [show p.x + (-1) = p.x - 1 by ring, show p.y + 0 = p.y by ring, hpy]
    rw [wdist_comm _ _ ((p.x - 1) % (m.width : Int)),
      wdist_comm (m.width : Int) (m.normalize base).x p.x]
    have := wdist_pred_le (m.width : Int) p.x (m.normalize base).x hw' hp1 hp2 hb1 hb2
    omega

theorem calculate_distance_descent (m : GMap) (hw : 0 < m.width)
    (hh : 0 < m.height) (base p : Pos) (hbn : m.isNormalized base)
    (hpn : m.isNormalized p) (hpos : 0 < m.calculate_distance base p) :
    ∃ d ∈ cardinals, m.calculate_distance base (m.normalize (p.directional_offset d)) =
      m.calculate_distance base p - 1 := by
  have hw' : (0 : Int) < (m.width : Int) := by exact_mod_cast hw
  have hh' : (0 : Int) < (m.height : Int) := by exact_mod_cast hh
  obtain ⟨hb1, hb2, hb3, hb4⟩ := hbn
  obtain ⟨hp1, hp2, hp3, hp4⟩ := hpn
  have hpx : p.x % (m.width : Int) = p.x := Int.emod_eq_of_lt hp1 hp2
  have hpy : p.y % (m.height : Int) = p.y := Int.emod_eq_of_lt hp3 hp4
  have hbb : m.normalize base = base := m.normalize_eq_self base ⟨hb1, hb2, hb3, hb4⟩
  have hpp : m.normalize p = p := m.normalize_eq_self p ⟨hp1, hp2, hp3, hp4⟩
  have hF : m.calculate_distance base p =
      wdist (m.width : Int) base.x p.x + wdist (m.height : Int) base.y p.y := by
    unfold GMap.calculate_distance
    rw [hbb, hpp]
  have hx0 := wdist_nonneg (m.width : Int) base.x p.x hb1 hb2 hp1 hp2
  have hy0 := wdist_nonneg (m.height : Int) base.y p.y hb3 hb4 hp3 hp4
  by_cases hxpos : 0 < wdist (m.width : Int) base.x p.x
  · rw [wdist_comm] at hxpos
    rcases wdist_descent (m.width : Int) p.x base.x hw' hp1 hp2 hb1 hb2 hxpos with
      hde | hde
    · refine ⟨Direction.east, by simp [cardinals], ?_⟩
      have hgoal : m.calculate_distance base (m.normalize (p.directional_offset
          Direction.east)) = wdist (m.width : Int) base.x ((p.x + 1) % (m.width : Int)) +
            wdist (m.height : Int) base.y p.y := by
        unfold GMap.calculate_distance Pos.directional_offset Direction.offset Pos.add
        rw [hbb]
        rw [m.normalize_eq_self _ (m.normalize_isNormalized hw hh _)]
        show wdist _ _ ((⟨(p.x + 1) % _, (p.y + 0) % _⟩ : Pos)).x +
            wdist _ _ ((⟨(p.x + 1) % _, (p.y + 0) % _⟩ : Pos)).y = _
        simp only
        rw [show p.y + 0 = p.y by ring, hpy]
      rw [hgoal, hF, wdist_comm (m.width : Int) base.x ((p.x + 1) % (m.width : Int)),
        hde, wdist_comm (m.width : Int) p.x base.x]
      ring
    · refine ⟨Direction.west, by simp [cardinals], ?_⟩
      have hgoal : m.calculate_distance base (m.normalize (p.directional_offset
          Direction.west)) = wdist (m.width : Int) base.x ((p.x - 1) % (m.width : Int)) +
            wdist (m.height : Int) base.y p.y := by
        unfold GMap.calculate_distance Pos.directional_offset Direction.offset Pos.add
        rw [hbb]
        rw [m.normalize_eq_self _ (m.normalize_isNormalized hw hh _)]
        show wdist _ _ ((⟨(p.x + (-1)) % _, (p.y + 0) % _⟩ : Pos)).x +
            wdist _ _ ((⟨(p.x + (-1)) % _, (p.y + 0) % _⟩ : Pos)).y = _
        simp only
        rw [show p.x + (-1) = p.x - 1 by ring, show p.y + 0 = p.y by ring, hpy]
      rw [hgoal, hF, wdist_comm (m.width : Int) base.x ((p.x - 1) % (m.width : Int)),
        hde, wdist_comm (m.width : Int) p.x base.x]
      ring
  · have hypos : 0 < wdist (m.height : Int) base.y p.y := by
      rw [hF] at hpos
      omega
    rw [wdist_comm] at hypos
    rcases wdist_descent (m.height : Int) p.y base.y hh' hp3 hp4 hb3 hb4 hypos with
      hde | hde
    · refine ⟨Direction.south, by simp [cardinals], ?_⟩
      have hgoal : m.calculate_distance base (m.normalize (p.directional_offset
          Direction.south)) = wdist (m.width : Int) base.x p.x +
            wdist (m.height : Int) base.y ((p.y + 1) % (m.height : Int)) := by
        unfold GMap.calculate_distance Pos.directional_offset Direction.offset Pos.add
        rw [hbb]
        rw [m.normalize_eq_self _ (m.normalize_isNormalized hw hh _)]
        show wdist _ _ ((⟨(p.x + 0) % _, (p.y + 1) % _⟩ : Pos)).x +
            wdist _ _ ((⟨(p.x + 0) % _, (p.y + 1) % _⟩ : Pos)).y = _
        simp only
        rw [show p.x + 0 = p.x by ring, hpx]
      rw [hgoal, hF, wdist_comm (m.height : Int) base.y ((p.y + 1) % (m.height : Int)),
        hde, wdist_comm (m.height : Int) p.y base.y]
      ring
    · refine ⟨Direction.north, by simp [cardinals], ?_⟩
      have hgoal : m.calculate_distance base (m.normalize (p.directional_offset
          Direction.north)) = wdist (m.width : Int) base.x p.x +
            wdist (m.height : Int) base.y ((p.y - 1) % (m.height : Int)) := by
        unfold GMap.calculate_distance Pos.directional_offset Direction.offset Pos.add
        rw [hbb]
        rw [m.normalize_eq_self _ (m.normalize_isNormalized hw hh _)]
        show wdist _ _ ((⟨(p.x + 0) % _, (p.y + (-1)) % _⟩ : Pos)).x +
            wdist _ _ ((⟨(p.x + 0) % _, (p.y + (-1)) % _⟩ : Pos)).y = _
        simp only
        rw [show p.x + 0 = p.x by ring, show p.y + (-1) = p.y - 1 by ring, hpx]
      rw [hgoal, hF, wdist_comm (m.height : Int) base.y ((p.y - 1) % (m.height : Int)),
        hde, wdist_comm (m.height : Int) p.y base.y]
      ring

end Halite
